import Mathlib

/-!
# Verification of the ITD-SDK-js authentication subsystem

Shallow embedding of the authentication/refresh subsystem of the ITD SDK:
the cookie jar access (`AuthManager.hasRefreshToken`), the token refresh
state machine (`AuthManager.refreshAccessToken`), logout
(`AuthManager.logout`), the token-file update (`saveAccessToken` in
`token-storage.js`), the cookie persistence filter, the axios
request/response interceptors of `ITDClient`, and the `_refreshPromise`
de-duplication dynamics.

Strings from the JavaScript side are modelled as `List Char`; fallible
jar lookups as `Except`; the scripted network environment as explicit
inductive types.  Mutation is modelled by explicit state passing.
-/

namespace ITD

/-- A cookie in the tough-cookie jar: a key/value pair (domain and path are
the base domain in every use made by the SDK, so they are elided). -/
structure Cookie where
  key : List Char
  value : List Char
deriving DecidableEq, Repr

/-- The cookie key the refresh credential lives under (`refresh_token`). -/
def refreshTokenKey : List Char := "refresh_token".toList

/-- `AuthManager.hasRefreshToken` (src/src/auth.js lines 24-31):
`getCookiesSync` may throw (modelled as `Except.error`), in which case the
`catch` returns `false`; otherwise the jar's cookie list is scanned with
`cookies.some(c => c.key === 'refresh_token')`. -/
def hasRefreshTokenJS (lookup : Except (List Char) (List Cookie)) : Bool :=
  match lookup with
  | .error _ => false
  | .ok cookies => cookies.any (fun c => c.key = refreshTokenKey)

/-- A JavaScript value that can be passed to `ITDClient.setAccessToken`:
a string, `null`, `undefined`, or the number `0` (the falsy values named by
the specification, plus arbitrary strings). -/
inductive JSArg where
  | jstr (s : List Char)
  | jnull
  | jundef
  | jzero
deriving DecidableEq, Repr

/-- `ITDClient.setAccessToken` (src/unnamed/part_003 lines 1385-1387):
`this.accessToken = token || null`.  All falsy arguments (`""`, `null`,
`undefined`, `0`) collapse to `null`; a truthy string is stored as is. -/
def setAccessTokenJS (arg : JSArg) : Option (List Char) :=
  match arg with
  | .jstr s => if s.isEmpty then none else some s
  | .jnull => none
  | .jundef => none
  | .jzero => none

/-- The request interceptor (src/unnamed/part_003 lines 1306-1312): when the
client holds a truthy access token and the outgoing config does not already
carry an `Authorization` header, `Authorization: Bearer <token>` is attached.
Returns the attached header value, `none` when nothing is attached. -/
def attachAuthHeader (accessToken : Option (List Char)) (hasAuthHeader : Bool) :
    Option (List Char) :=
  match accessToken with
  | none => none
  | some t => if ¬t.isEmpty ∧ ¬hasAuthHeader then some ("Bearer ".toList ++ t) else none

/-! ## Client state and the scripted network -/

instance exceptDecEq {ε α : Type} [DecidableEq ε] [DecidableEq α] :
    DecidableEq (Except ε α) := fun a b =>
  match a, b with
  | .error e, .error f =>
      if h : e = f then .isTrue (by rw [h]) else .isFalse (by simp [h])
  | .error _, .ok _ => .isFalse (by simp)
  | .ok _, .error _ => .isFalse (by simp)
  | .ok x, .ok y =>
      if h : x = y then .isTrue (by rw [h]) else .isFalse (by simp [h])

/-- The mutable client/session state touched by the auth subsystem:
`client.accessToken`, `auth.isAuthenticated`, `auth.userData`, the cookie
jar (whose lookup may fail), the `.env` file content (`none` when the file
does not exist), the `.cookies` file content, and the axios default
`Cookie` header. -/
structure ClientState where
  accessToken : Option (List Char)
  isAuthenticated : Bool
  userData : Option (List Char)
  jar : Except (List Char) (List Cookie)
  envFile : Option (List Char)
  cookieFile : Option (List Char)
  defaultCookieHeader : Option (List Char)
deriving DecidableEq, Repr

/-- `hasRefreshToken` on the client state. -/
def ClientState.hasRefreshToken (st : ClientState) : Bool :=
  hasRefreshTokenJS st.jar

/-- Behaviour of one network round trip as observed by the caller of
`this.axios.post`: either the promise rejects (transport error, or an HTTP
error status turned into a throw by axios / the response interceptor), or it
resolves with a status, an optional `accessToken` body field, and an
optional `set-cookie` header (absent header vs. present-but-empty list are
distinguished because JavaScript treats an empty array as truthy). -/
inductive RefreshNet where
  | throws
  | responds (status : Nat) (accessToken : Option (List Char))
      (setCookies : Option (List Cookie))
deriving DecidableEq, Repr

/-- tough-cookie `setCookieSync` upsert: a cookie with the same key (same
domain/path throughout the SDK) is replaced, otherwise the cookie is
appended. -/
def jarSet (jar : List Cookie) (c : Cookie) : List Cookie :=
  if jar.any (fun o => o.key = c.key) then
    jar.map (fun o => if o.key = c.key then c else o)
  else jar ++ [c]

/-- The "important" cookie allow-list (src/src/auth.js lines 90-94):
`refresh_token`, keys starting with `__ddg`, and `is_auth`. -/
def importantCookie (c : Cookie) : Bool :=
  c.key = refreshTokenKey ∨ "__ddg".toList.isPrefixOf c.key ∨ c.key = "is_auth".toList

/-- `Array.prototype.join`: the empty array joins to the empty string, a
singleton joins to its element, and otherwise the separator goes between
consecutive elements. -/
def joinSep (sep : List Char) : List (List Char) → List Char
  | [] => []
  | [x] => x
  | x :: xs => x ++ sep ++ joinSep sep xs

/-- The persisted cookie header (src/src/auth.js line 96):
`importantCookies.map(c => k=v).join('; ')`. -/
def joinCookieHeader (cs : List Cookie) : List Char :=
  joinSep (';' :: ' ' :: []) (cs.map (fun c => c.key ++ '=' :: c.value))

/-! ## The `.env` token-file update (`saveAccessToken`, src/src/token-storage.js) -/

/-- The literal `ITD_ACCESS_TOKEN=` the regex `^ITD_ACCESS_TOKEN=.*$` is
anchored on. -/
def tokenKey : List Char := "ITD_ACCESS_TOKEN=".toList

/-- JavaScript line terminators (`\n`, `\r`, U+2028, U+2029): the characters
the multiline anchors `^`/`$` recognise and `.` refuses to match. -/
def isLineTerm (c : Char) : Bool :=
  c = '\n' ∨ c = '\r' ∨ c.val = 0x2028 ∨ c.val = 0x2029

/-- Splits a character list on a separator character, keeping empty
segments, exactly like `String.prototype.split` with a one-character
separator: `splitOnChar ';' "a;;b" = ["a", "", "b"]`. -/
def splitOnChar (sep : Char) : List Char → List (List Char)
  | [] => [[]]
  | c :: cs =>
    let r := splitOnChar sep cs
    if c = sep then [] :: r
    else
      match r with
      | [] => [[c]]
      | h :: t => (c :: h) :: t

/-- Finds the first match of `/^ITD_ACCESS_TOKEN=.*$/m` in the text:
scanning left to right, a position qualifies when it is a line start
(`atStart`) and the rest of the text begins with `tokenKey`; the matched
substring runs to the next line terminator.  Returns
`(before, matched, after)` with `text = before ++ matched ++ after`. -/
def findTokenMatch : Bool → List Char → Option (List Char × List Char × List Char)
  | _, [] => none
  | atStart, c :: rest =>
    if atStart ∧ tokenKey.isPrefixOf (c :: rest) then
      some ([], (c :: rest).takeWhile (fun x => !isLineTerm x),
        (c :: rest).dropWhile (fun x => !isLineTerm x))
    else
      (findTokenMatch (isLineTerm c) rest).map
        (fun pma => (c :: pma.1, pma.2.1, pma.2.2))

/-- JavaScript `GetSubstitution` for a replacement string against a regex
with no capture groups: `$$` is a literal dollar, `$&` the matched text,
a dollar before backquote the text before the match, a dollar before
apostrophe the text after it; any other dollar (including `$1`, which has
no referent here) stays literal. -/
def jsSubst (matched before after : List Char) : List Char → List Char
  | [] => []
  | c :: rest =>
    if c = '$' then
      match rest with
      | [] => [c]
      | d :: rest2 =>
        if d = '$' then '$' :: jsSubst matched before after rest2
        else if d = '&' then matched ++ jsSubst matched before after rest2
        else if d.val = 0x60 then before ++ jsSubst matched before after rest2
        else if d.val = 0x27 then after ++ jsSubst matched before after rest2
        else c :: d :: jsSubst matched before after rest2
    else c :: jsSubst matched before after rest

/-- `saveAccessToken` on an existing file's content (src/src/token-storage.js
lines 23-36): if `/^ITD_ACCESS_TOKEN=.*$/m` tests true the first match is
replaced by the replacement string `ITD_ACCESS_TOKEN=${newToken}` (with
JavaScript substitution semantics), otherwise
`"\nITD_ACCESS_TOKEN=${newToken}\n"` is appended. -/
def saveTokenContent (content token : List Char) : List Char :=
  match findTokenMatch true content with
  | some (before, matched, after) =>
      before ++ jsSubst matched before after (tokenKey ++ token) ++ after
  | none => content ++ '\n' :: (tokenKey ++ token) ++ ['\n']

/-! ## The refresh state machine (`AuthManager.refreshAccessToken`) -/

/-- Applies the `set-cookie` handling of a successful refresh
(src/src/auth.js lines 75-102): each received cookie is written to the jar
(`setCookieSync` throws on a broken jar, caught per cookie, so a failed jar
is left as is); then the jar is re-read, filtered to the important
allow-list, and — when the filtered list is nonempty — joined with `; ` and
persisted to the `.cookies` file.  A failing re-read skips the persist. -/
def applyCookieUpdates (st : ClientState) (cookies : List Cookie) : ClientState :=
  let jar' : Except (List Char) (List Cookie) :=
    match st.jar with
    | .error e => .error e
    | .ok cs => .ok (cookies.foldl jarSet cs)
  let st' := { st with jar := jar' }
  match jar' with
  | .error _ => st'
  | .ok cs' =>
      let imp := cs'.filter importantCookie
      if imp.isEmpty then st'
      else { st' with cookieFile := some (joinCookieHeader imp) }

/-- Result of one `refreshAccessToken` call: the new client state, the
returned token (`null` modelled as `none`), and how many network calls to
the refresh endpoint were made. -/
structure RefreshOutcome where
  state : ClientState
  result : Option (List Char)
  netCalls : Nat
deriving DecidableEq, Repr

/-- `AuthManager.refreshAccessToken` (src/src/auth.js lines 40-122).
Precondition: without a `refresh_token` cookie it returns `null` at once
(no network call).  Otherwise one POST is issued; on a thrown error the
`catch` logs and returns `null`; on a resolved response the success branch
requires `status === 200` and a truthy `accessToken` field, and then sets
the client token, marks the session authenticated, rewrites the `.env`
file (skipped when the file is missing), applies the `set-cookie` handling
when the header is present, and returns the token; any other response
returns `null` with no state change. -/
def refreshAccessToken (st : ClientState) (net : RefreshNet) : RefreshOutcome :=
  if st.hasRefreshToken then
    match net with
    | .throws => ⟨st, none, 1⟩
    | .responds status accessToken setCookies =>
        match accessToken with
        | some t =>
            if status = 200 ∧ ¬t.isEmpty then
              let st1 := { st with accessToken := some t, isAuthenticated := true }
              let st2 := { st1 with
                envFile := st1.envFile.map (fun content => saveTokenContent content t) }
              let st3 :=
                match setCookies with
                | some cookies => applyCookieUpdates st2 cookies
                | none => st2
              ⟨st3, some t, 1⟩
            else ⟨st, none, 1⟩
        | none => ⟨st, none, 1⟩
  else ⟨st, none, 0⟩

/-! ## Logout (`AuthManager.logout`, src/src/auth.js lines 129-147) -/

/-- Behaviour of one ordinary network round trip: a thrown error or a
resolved status. -/
inductive HttpNet where
  | throws
  | responds (status : Nat)
deriving DecidableEq, Repr

/-- The URL `logout` posts to (src/src/auth.js line 131). -/
def logoutUrl (base : List Char) : List Char := base ++ "/api/v1/auth/sign-out".toList

/-- `AuthManager.logout`: on a resolved response with `status === 200` it
clears `isAuthenticated`, `userData` and the access token
(`setAccessToken(null)`), and sets the axios default `Cookie` header to the
empty string (the cookie jar itself is not touched), returning `true`;
any other status and any thrown error return `false` with no change. -/
def logout (st : ClientState) (net : HttpNet) : ClientState × Bool :=
  match net with
  | .throws => (st, false)
  | .responds status =>
      if status = 200 then
        ({ st with isAuthenticated := false, userData := none,
                   accessToken := none, defaultCookieHeader := some [] }, true)
      else (st, false)

/-! ## The `.cookies` round trip (`saveCookieHeader` / `_loadCookiesFromFile`) -/

/-- JavaScript whitespace trimmed by `String.prototype.trim` (the characters
that can actually occur in this SDK's cookie strings). -/
def isJsWs (c : Char) : Bool := c = ' ' ∨ c = '\t' ∨ c = '\n' ∨ c = '\r'

/-- `p.trim()`. -/
def jsTrim (s : List Char) : List Char :=
  ((s.dropWhile isJsWs).reverse.dropWhile isJsWs).reverse

/-- The parse in `ITDClient._loadCookiesFromFile` (src/unnamed/part_003 lines
1400-1418): split the header on `;`, trim each part, drop empty parts, then
split each part on `=`; a part yields a cookie when the name is nonempty and
at least one `=` was present, the value re-joining the remaining segments
with `=`. -/
def parseCookiePart (part : List Char) : Option (List Char × List Char) :=
  if part.isEmpty then none
  else
    match splitOnChar '=' part with
    | [] => none
    | name :: valueParts =>
        if ¬name.isEmpty ∧ ¬valueParts.isEmpty then
          some (name, joinSep ['='] valueParts)
        else none

/-- The full parse of the persisted header. -/
def parseCookieHeader (s : List Char) : List (List Char × List Char) :=
  ((splitOnChar ';' s).map jsTrim).filterMap parseCookiePart

/-! ## The response interceptor (src/unnamed/part_003 lines 1315-1367) -/

/-- The path fragment the interceptor guards on:
`url.includes('/api/v1/auth/refresh')`. -/
def refreshPath : List Char := "/api/v1/auth/refresh".toList

/-- `String.prototype.includes`: does `pat` occur as a contiguous run? -/
def containsSeq (pat : List Char) : List Char → Bool
  | [] => pat.isEmpty
  | c :: rest => pat.isPrefixOf (c :: rest) ∨ containsSeq pat rest

/-- The refresh-endpoint guard of the interceptor. -/
def isRefreshUrl (url : List Char) : Bool := containsSeq refreshPath url

/-- What one request delivers to its caller after the interceptor ran. -/
inductive ReqOutcome where
  /-- A non-401 response or error: passed through unchanged. -/
  | passthrough (status : Nat)
  /-- A 401 propagated to the caller. -/
  | unauthorized
deriving DecidableEq, Repr

/-- One request's life through the 401 interceptor.  `statuses` scripts the
status the server answers each successive attempt with (head = the attempt
about to be delivered), `refreshes` scripts the results of successive
`refreshAccessToken()` invocations, and `retried` is the request's
`__itdRetried` flag on entry.  Mirrors the error interceptor: a non-401 is
passed through; a 401 is propagated when the flag is set, when the URL is
the refresh endpoint, or when refresh yields no token; otherwise the flag
is set, refresh is awaited, **the flag is deleted**, and the request is
replayed with the new token.  Returns the outcome, the number of network
attempts this request made, and the number of refresh invocations. -/
def runRequest (url : List Char) :
    List Nat → List (Option (List Char)) → Bool → ReqOutcome × Nat × Nat
  | [], _, _ => (.passthrough 0, 0, 0)
  | status :: rest, refreshes, retried =>
    if status ≠ 401 then (.passthrough status, 1, 0)
    else if retried then (.unauthorized, 1, 0)
    else if isRefreshUrl url then (.unauthorized, 1, 0)
    else
      match refreshes with
      | [] => (.unauthorized, 1, 1)
      | none :: _ => (.unauthorized, 1, 1)
      | some _ :: refreshes' =>
          let r := runRequest url rest refreshes' false
          (r.1, r.2.1 + 1, r.2.2 + 1)

/-! ## `_refreshPromise` de-duplication dynamics

A small-step model of the shared client under cooperative scheduling.
Each task is either an interceptor invocation that has reached the
de-duplication block (guards passed, flag set), or a direct caller of
`ITDClient.refreshAccessToken` / `ensureAuthenticated`.  Calling an async
function runs it synchronously up to its first await, so reading
`_refreshPromise`, storing a fresh promise into it, and issuing the POST of
the new refresh all happen in one uninterrupted step; completion of an
outstanding network call runs the `finally` (clearing `_refreshPromise`
when it still holds that promise) and resumes every awaiter with the same
settled value. -/

/-- A task participating in the refresh traffic. -/
inductive RTask where
  /-- Interceptor invocation at the `if (!this._refreshPromise)` block. -/
  | icStart
  /-- Interceptor invocation awaiting refresh operation `r`. -/
  | icWait (r : Nat)
  /-- A direct `refreshAccessToken()`/`ensureAuthenticated()` caller about
  to invoke `auth.refreshAccessToken` (which never reads the marker). -/
  | dStart
  /-- A direct caller awaiting its own network operation `r`. -/
  | dWait (r : Nat)
  /-- Finished with the settled value `v`. -/
  | finished (v : Nat)
deriving DecidableEq, Repr

/-- Resolution of a refresh operation: awaiting tasks receive its value. -/
def resolveTask (r : Nat) (v : Nat) : RTask → RTask
  | .icWait r' => if r' = r then .finished v else .icWait r'
  | .dWait r' => if r' = r then .finished v else .dWait r'
  | t => t

/-- Shared client state for the refresh dynamics: the `_refreshPromise`
marker, the set of refresh network calls currently in flight, the tasks,
and a fresh-identifier counter. -/
structure RState where
  marker : Option Nat
  inflight : List Nat
  tasks : List RTask
  next : Nat
deriving DecidableEq, Repr

/-- One scheduler step.  A task is selected by splitting the task list. -/
inductive RStep : RState → RState → Prop where
  /-- An interceptor task finds `_refreshPromise` set and awaits it. -/
  | icJoin (s : RState) (pre post : List RTask) (r : Nat) :
      s.tasks = pre ++ .icStart :: post → s.marker = some r →
      RStep s { s with tasks := pre ++ .icWait r :: post }
  /-- An interceptor task finds `_refreshPromise` null: it stores a fresh
  promise and the refresh's POST goes out, atomically. -/
  | icNew (s : RState) (pre post : List RTask) :
      s.tasks = pre ++ .icStart :: post → s.marker = none →
      RStep s { marker := some s.next, inflight := s.inflight ++ [s.next],
                tasks := pre ++ .icWait s.next :: post, next := s.next + 1 }
  /-- A direct caller starts `auth.refreshAccessToken`: its POST goes out
  without consulting or setting `_refreshPromise`. -/
  | dNew (s : RState) (pre post : List RTask) :
      s.tasks = pre ++ .dStart :: post →
      RStep s { marker := s.marker, inflight := s.inflight ++ [s.next],
                tasks := pre ++ .dWait s.next :: post, next := s.next + 1 }
  /-- An outstanding refresh call settles with value `v`: the `finally`
  clears the marker when it holds this promise, and all awaiters resume
  with `v`. -/
  | complete (s : RState) (r v : Nat) :
      r ∈ s.inflight →
      RStep s { marker := if s.marker = some r then none else s.marker,
                inflight := s.inflight.erase r,
                tasks := s.tasks.map (resolveTask r v), next := s.next }

/-- Reachability under `RStep`. -/
inductive RReach : RState → RState → Prop where
  | refl (s : RState) : RReach s s
  | tail {s t u : RState} : RReach s t → RStep t u → RReach s u

/-- Initial state of `n` concurrent interceptor invocations that all hit the
de-duplication block (the N-simultaneous-401 scenario). -/
def initInterceptors (n : Nat) : RState :=
  ⟨none, [], List.replicate n .icStart, 0⟩

/-- Initial state of two concurrent direct `refreshAccessToken()` callers. -/
def initTwoDirect : RState := ⟨none, [], [.dStart, .dStart], 0⟩

/-- Invariant of interceptor-only executions: every in-flight refresh call
is the one held by `_refreshPromise`, in-flight calls are distinct, a set
marker is backed by an in-flight call, every awaiting interceptor task
awaits the marker's call, and no direct-caller task exists. -/
def RInv (s : RState) : Prop :=
  (∀ r ∈ s.inflight, s.marker = some r) ∧
  s.inflight.Nodup ∧
  (∀ r, s.marker = some r → r ∈ s.inflight) ∧
  (∀ r, RTask.icWait r ∈ s.tasks → s.marker = some r) ∧
  (∀ t ∈ s.tasks, t ≠ .dStart ∧ ∀ r, t ≠ .dWait r)

/-- Intermediate state after the first direct caller's POST went out. -/
def directTrace1 : RState := ⟨none, [0], [.dWait 0, .dStart], 1⟩

/-- State after both direct callers' POSTs went out: two refresh network
calls are in flight at once. -/
def directTrace2 : RState := ⟨none, [0, 1], [.dWait 0, .dWait 1], 2⟩

/-! ## Spec-side comparison definitions -/

/-- Follows the spec's words for the token-file update ("replaces that line
in place"): the first line matching `ITD_ACCESS_TOKEN=` is replaced by the
new line, every other line is kept. -/
def replaceFirstLineSpec (newLine : List Char) : List (List Char) → List (List Char)
  | [] => []
  | l :: ls =>
      if tokenKey.isPrefixOf l then newLine :: ls
      else l :: replaceFirstLineSpec newLine ls

/-- Joins lines, terminating each with a newline: the text standing before
a line-anchored match located after these lines. -/
def joinSepNl (ls : List (List Char)) : List Char :=
  ls.foldr (fun l acc => l ++ '\n' :: acc) []

/-- Cookie strings the persisted-header round trip is stated for: a
nonempty key free of `;`, `=` and whitespace, and a value free of `;` and
whitespace. -/
def cleanCookie (c : Cookie) : Prop :=
  ¬c.key.isEmpty ∧
  (∀ ch ∈ c.key, ch ≠ ';' ∧ ch ≠ '=' ∧ isJsWs ch = false) ∧
  (∀ ch ∈ c.value, ch ≠ ';' ∧ isJsWs ch = false)

instance cleanCookieDecidable (c : Cookie) : Decidable (cleanCookie c) := by
  unfold cleanCookie
  exact inferInstance

/-! # Theorems -/

/-- **C8**: `hasRefreshToken` returns `true` exactly when the jar lookup
succeeds and yields a cookie named `refresh_token`; a failing lookup yields
`false`.  The operation is a total function of the jar state, so it never
throws. -/
theorem claim_C8_hasRefreshToken (lookup : Except (List Char) (List Cookie)) :
    hasRefreshTokenJS lookup = true ↔
      ∃ cs, lookup = .ok cs ∧ ∃ c ∈ cs, c.key = refreshTokenKey := by
  cases lookup with
  | error e => simp [hasRefreshTokenJS]
  | ok cs => simp [hasRefreshTokenJS, List.any_eq_true]

/-- Witness for C8: a jar holding exactly a `refresh_token` cookie makes
`hasRefreshToken` answer `true`, and a broken jar lookup answers `false`. -/
theorem claim_C8_hasRefreshToken_witness :
    hasRefreshTokenJS (.ok [⟨refreshTokenKey, "v".toList⟩]) = true ∧
      hasRefreshTokenJS (.error "jar not initialized".toList) = false := by
  constructor
  · exact (claim_C8_hasRefreshToken _).mpr
      ⟨[⟨refreshTokenKey, "v".toList⟩], rfl, ⟨refreshTokenKey, "v".toList⟩,
        by simp, rfl⟩
  · rfl

/-- **C10**: `setAccessToken` normalizes every falsy argument (empty
string, `null`, `undefined`, `0`) to `null`, so the stored token is `null`
or the exact nonempty string passed in; and the request interceptor
attaches an `Authorization` header only when a nonempty token is held and
the config carries none. -/
theorem claim_C10_setAccessToken :
    (∀ arg, setAccessTokenJS arg = none ∨
       ∃ s, ¬s.isEmpty ∧ arg = .jstr s ∧ setAccessTokenJS arg = some s) ∧
    (∀ arg ∈ [JSArg.jstr [], .jnull, .jundef, .jzero], setAccessTokenJS arg = none) ∧
    (∀ tok hasHdr, (attachAuthHeader tok hasHdr).isSome →
       ∃ s, tok = some s ∧ ¬s.isEmpty ∧ hasHdr = false) ∧
    (∀ s, ¬s.isEmpty →
       attachAuthHeader (some s) false = some ("Bearer ".toList ++ s)) := by
  refine ⟨?_, ?_, ?_, ?_⟩
  · intro arg
    cases arg with
    | jstr s =>
        by_cases h : s.isEmpty
        · left; simp [setAccessTokenJS, h]
        · right; exact ⟨s, h, rfl, by simp [setAccessTokenJS, h]⟩
    | jnull => left; rfl
    | jundef => left; rfl
    | jzero => left; rfl
  · intro arg h
    fin_cases h <;> rfl
  · intro tok hasHdr h
    cases tok with
    | none => simp [attachAuthHeader] at h
    | some t =>
        simp only [attachAuthHeader] at h
        split at h
        · rename_i hc
          exact ⟨t, rfl, hc.1, by simpa using hc.2⟩
        · simp at h
  · intro s hs
    simp [attachAuthHeader, hs]

/-- Witness for C10: the falsy argument `""` is stored as `null` and
attaches no header; the truthy token `"tok"` is stored exactly and is
attached as `Bearer tok`. -/
theorem claim_C10_setAccessToken_witness :
    setAccessTokenJS (.jstr []) = none ∧
      attachAuthHeader (setAccessTokenJS (.jstr "tok".toList)) false
        = some ("Bearer tok".toList) := by
  constructor
  · exact claim_C10_setAccessToken.2.1 (.jstr []) (by simp)
  · have h := claim_C10_setAccessToken.2.2.2 "tok".toList (by decide)
    have hset : setAccessTokenJS (.jstr "tok".toList) = some "tok".toList := by decide
    rw [hset, h]
    decide

/-- **C3**: without a `refresh_token` cookie, `refreshAccessToken` returns
`null` at once: no network call is made and the state (session and
persisted) is untouched, whatever the network would have answered. -/
theorem claim_C3_refresh_fast_fail (st : ClientState) (net : RefreshNet)
    (h : st.hasRefreshToken = false) :
    refreshAccessToken st net = ⟨st, none, 0⟩ := by
  unfold refreshAccessToken
  simp [h]

/-- Witness for C3: a client with an empty jar refreshes to `null` with
zero network calls and no state change. -/
theorem claim_C3_refresh_fast_fail_witness :
    refreshAccessToken ⟨none, false, none, .ok [], some "A=1".toList, none, none⟩
        .throws
      = ⟨⟨none, false, none, .ok [], some "A=1".toList, none, none⟩, none, 0⟩ :=
  claim_C3_refresh_fast_fail _ _ (by decide)

/-- **C9**: every failed refresh (thrown error, non-200 status, or 200
without a truthy `accessToken`) returns `null` and leaves the whole client
state — in particular `accessToken` and `isAuthenticated` — exactly as it
was; the token is updated only on the success path. -/
theorem claim_C9_failed_refresh_no_change (st : ClientState) (net : RefreshNet) :
    ((refreshAccessToken st net).result = none →
       (refreshAccessToken st net).state = st) ∧
    (net = .throws → (refreshAccessToken st net).result = none) ∧
    (∀ status tok sc, net = .responds status tok sc →
       ¬(status = 200 ∧ ∃ t, tok = some t ∧ ¬t.isEmpty) →
       (refreshAccessToken st net).result = none) := by
  refine ⟨?_, ?_, ?_⟩
  · intro h
    by_cases hr : st.hasRefreshToken
    · cases net with
      | throws => simp [refreshAccessToken, hr]
      | responds status tok sc =>
          cases tok with
          | none => simp [refreshAccessToken, hr]
          | some t =>
              by_cases h200 : status = 200
              · by_cases hemp : t = []
                · simp [refreshAccessToken, hr, h200, hemp]
                · exfalso
                  simp [refreshAccessToken, hr, h200, hemp] at h
              · simp [refreshAccessToken, hr, h200]
    · simp [refreshAccessToken, hr]
  · rintro rfl
    by_cases hr : st.hasRefreshToken <;> simp [refreshAccessToken, hr]
  · rintro status tok sc rfl hfail
    by_cases hr : st.hasRefreshToken
    · cases tok with
      | none => simp [refreshAccessToken, hr]
      | some t =>
          by_cases h200 : status = 200
          · by_cases hemp : t = []
            · simp [refreshAccessToken, hr, h200, hemp]
            · exact absurd ⟨h200, t, rfl, by simpa using hemp⟩ hfail
          · simp [refreshAccessToken, hr, h200]
    · simp [refreshAccessToken, hr]

/-- Witness for C9: with a refresh credential present, a 200 response with
no `accessToken` field returns `null` and leaves the state untouched. -/
theorem claim_C9_failed_refresh_no_change_witness :
    (refreshAccessToken
        ⟨none, false, none, .ok [⟨refreshTokenKey, "v".toList⟩], none, none, none⟩
        (.responds 200 none none)).result = none ∧
    (refreshAccessToken
        ⟨none, false, none, .ok [⟨refreshTokenKey, "v".toList⟩], none, none, none⟩
        (.responds 200 none none)).state
      = ⟨none, false, none, .ok [⟨refreshTokenKey, "v".toList⟩], none, none, none⟩ := by
  have h := claim_C9_failed_refresh_no_change
    ⟨none, false, none, .ok [⟨refreshTokenKey, "v".toList⟩], none, none, none⟩
    (.responds 200 none none)
  have hres := h.2.2 200 none none rfl (by simp)
  exact ⟨hres, h.1 hres⟩

/-- **C4**: a 401 answered to a request whose URL contains the refresh
endpoint path is propagated to the caller as is: no refresh call is made
and the request is not replayed, whatever the retried flag or the scripted
refresh results. -/
theorem claim_C4_refresh_url_guard (url : List Char) (rest : List Nat)
    (refreshes : List (Option (List Char))) (retried : Bool)
    (h : isRefreshUrl url = true) :
    runRequest url (401 :: rest) refreshes retried = (.unauthorized, 1, 0) := by
  unfold runRequest
  by_cases hr : retried <;> simp [hr, h]

/-- Witness for C4: the refresh endpoint's own 401 is propagated with zero
refresh invocations even though a refresh result was scripted. -/
theorem claim_C4_refresh_url_guard_witness :
    runRequest "https://b/api/v1/auth/refresh".toList [401]
      [some "t".toList] false = (.unauthorized, 1, 0) :=
  claim_C4_refresh_url_guard _ _ _ _ (by decide)

/-- **C2 (code bug)**: the interceptor deletes `__itdRetried` just before
replaying, so when the server keeps answering 401 and refresh keeps
producing tokens the request is refreshed and replayed over and over:
`n` consecutive 401s cause `n` refresh calls and `n + 1` attempts, instead
of the single retry the claim (and the code's own no-loop guard) demands. -/
theorem claim_C2_retry_flag_deleted (url t : List Char) (n : Nat)
    (h : isRefreshUrl url = false) :
    runRequest url (List.replicate n 401 ++ [200])
      (List.replicate n (some t)) false
      = (.passthrough 200, n + 1, n) := by
  induction n with
  | zero => simp [runRequest]
  | succ k ih => simp [runRequest, h, List.replicate_succ, ih]

/-- Witness for C2: three consecutive 401s on an ordinary URL produce three
refresh calls and four attempts — a second and third replay of a request
already retried once. -/
theorem claim_C2_retry_flag_deleted_witness :
    runRequest "https://b/api/posts".toList [401, 401, 401, 200]
      [some "t".toList, some "t".toList, some "t".toList] false
      = (.passthrough 200, 4, 3) := by
  have h := claim_C2_retry_flag_deleted "https://b/api/posts".toList
    "t".toList 3 (by decide)
  simpa using h

/-- **C7 counterexample**: the claim's endpoint and success condition both
fail on the code: `logout` posts to `/api/v1/auth/sign-out`, not
`/api/v1/auth/logout`, and an HTTP 204 response makes it return `false`
with the session untouched, where the claim requires success. -/
theorem claim_C7_logout_counterexample :
    (logout ⟨some "tok".toList, true, some "u".toList, .ok [], none, none, none⟩
        (.responds 204)).2 = false ∧
      logoutUrl "https://b".toList ≠ "https://b/api/v1/auth/logout".toList := by
  constructor
  · rfl
  · decide

/-- **C7 (amended)**: `logout` posts to `{base}/api/v1/auth/sign-out`; it
succeeds exactly on HTTP 200, clearing the in-memory access token, the
authenticated flag, the user data, and the axios default `Cookie` header
(the cookie jar is left as is), and returns `true`; on any other status or
a thrown error it returns `false` and changes nothing. -/
theorem claim_C7_logout_amended (st : ClientState) (net : HttpNet) :
    logoutUrl "https://b".toList = "https://b/api/v1/auth/sign-out".toList ∧
    logout st (.responds 200)
      = ({ st with isAuthenticated := false, userData := none,
                   accessToken := none, defaultCookieHeader := some [] }, true) ∧
    (∀ status, status ≠ 200 → logout st (.responds status) = (st, false)) ∧
    logout st .throws = (st, false) ∧
    (logout st net).1.jar = st.jar := by
  refine ⟨by decide, by simp [logout], ?_, rfl, ?_⟩
  · intro status hs
    simp [logout, hs]
  · cases net with
    | throws => rfl
    | responds status =>
        by_cases hs : status = 200 <;> simp [logout, hs]

/-- Witness for C7 (amended): a 500 response leaves the session untouched
and returns `false`; a 200 response clears the token and returns `true`. -/
theorem claim_C7_logout_amended_witness :
    logout ⟨some "tok".toList, true, some "u".toList, .ok [], none, none, none⟩
        (.responds 500)
      = (⟨some "tok".toList, true, some "u".toList, .ok [], none, none, none⟩,
          false) ∧
    (logout ⟨some "tok".toList, true, some "u".toList, .ok [], none, none, none⟩
        (.responds 200)).1.accessToken = none := by
  have h := claim_C7_logout_amended
    ⟨some "tok".toList, true, some "u".toList, .ok [], none, none, none⟩
    (.responds 500)
  exact ⟨h.2.2.1 500 (by decide), by rw [h.2.1]⟩

/-- A nonempty list of naturals whose members all equal `r` and which has
no duplicates is `[r]`. -/
theorem eq_singleton_of_all_eq {l : List Nat} {r : Nat} (hr : r ∈ l)
    (hall : ∀ a ∈ l, a = r) (hnd : l.Nodup) : l = [r] := by
  cases l with
  | nil => cases hr
  | cons a t =>
      have ha : a = r := hall a (by simp)
      cases t with
      | nil => simp [ha]
      | cons b t' =>
          exfalso
        -- a and b both equal r, contradicting Nodup
          have hb : b = r := hall b (by simp)
          have : a ∉ b :: t' := (List.nodup_cons.mp hnd).1
          exact this (by simp [ha, hb])

/-- The interceptor-only invariant holds initially. -/
theorem rinv_init (n : Nat) : RInv (initInterceptors n) := by
  refine ⟨?_, ?_, ?_, ?_, ?_⟩
  · intro r hr; cases hr
  · exact List.nodup_nil
  · intro r hr; cases hr
  · intro r hr
    have := List.eq_of_mem_replicate hr
    cases this
  · intro t ht
    have := List.eq_of_mem_replicate ht
    subst this
    exact ⟨by simp, fun r => by simp⟩

/-- `resolveTask` produces `dStart` only from `dStart`. -/
theorem resolveTask_dStart_iff (r v : Nat) (t : RTask) :
    resolveTask r v t = .dStart ↔ t = .dStart := by
  cases t with
  | icStart => simp [resolveTask]
  | icWait r' => simp only [resolveTask]; split <;> simp
  | dStart => simp [resolveTask]
  | dWait r' => simp only [resolveTask]; split <;> simp
  | finished v' => simp [resolveTask]

/-- `resolveTask` produces a `dWait` only from a `dWait`. -/
theorem resolveTask_dWait (r v r' : Nat) (t : RTask)
    (h : resolveTask r v t = .dWait r') : ∃ r'', t = .dWait r'' := by
  cases t with
  | dWait r'' => exact ⟨r'', rfl⟩
  | icStart => simp [resolveTask] at h
  | icWait r'' => simp only [resolveTask] at h; split at h <;> simp at h
  | dStart => exact ⟨r', by simp [resolveTask] at h⟩
  | finished v' => simp [resolveTask] at h

/-- `resolveTask` produces an `icWait` only from the same `icWait`, and only
when it does not await the settled call. -/
theorem resolveTask_icWait (r v r' : Nat) (t : RTask)
    (h : resolveTask r v t = .icWait r') : t = .icWait r' ∧ r' ≠ r := by
  cases t with
  | icWait r'' =>
      simp only [resolveTask] at h
      split at h
      · simp at h
      · rename_i hne
        cases h
        exact ⟨rfl, hne⟩
  | icStart => simp [resolveTask] at h
  | dStart => simp [resolveTask] at h
  | dWait r'' => simp only [resolveTask] at h; split at h <;> simp at h
  | finished v' => simp [resolveTask] at h

/-- The interceptor-only invariant is preserved by every step. -/
theorem rinv_step {s s' : RState} (hs : RInv s) (hstep : RStep s s') : RInv s' := by
  obtain ⟨h1, h2, h3, h4, h5⟩ := hs
  cases hstep with
  | icJoin pre post r htasks hm =>
      refine ⟨h1, h2, h3, ?_, ?_⟩
      · intro r' hr'
        rcases List.mem_append.mp hr' with h | h
        · exact h4 r' (htasks ▸ List.mem_append.mpr (Or.inl h))
        · rcases List.mem_cons.mp h with h | h
          · cases h
            exact hm
          · exact h4 r'
              (htasks ▸ List.mem_append.mpr (Or.inr (List.mem_cons.mpr (Or.inr h))))
      · intro t ht
        rcases List.mem_append.mp ht with h | h
        · exact h5 t (htasks ▸ List.mem_append.mpr (Or.inl h))
        · rcases List.mem_cons.mp h with h | h
          · subst h; exact ⟨by simp, fun r' => by simp⟩
          · exact h5 t
              (htasks ▸ List.mem_append.mpr (Or.inr (List.mem_cons.mpr (Or.inr h))))
  | icNew pre post htasks hm =>
      have hempty : s.inflight = [] := by
        cases hin : s.inflight with
        | nil => rfl
        | cons a l =>
            have := h1 a (by simp [hin])
            rw [hm] at this
            cases this
      have hnowait : ∀ r, RTask.icWait r ∉ s.tasks := by
        intro r hr
        have := h4 r hr
        rw [hm] at this
        cases this
      refine ⟨?_, ?_, ?_, ?_, ?_⟩
      · intro r hr
        simp only [hempty, List.nil_append, List.mem_singleton] at hr
        simp [hr]
      · simp [hempty]
      · intro r hr
        simp only [Option.some.injEq] at hr
        simp [hempty, hr]
      · intro r hr
        rcases List.mem_append.mp hr with h | h
        · exact absurd (htasks ▸ List.mem_append.mpr (Or.inl h)) (hnowait r)
        · rcases List.mem_cons.mp h with h | h
          · cases h; rfl
          · exact absurd
              (htasks ▸ List.mem_append.mpr (Or.inr (List.mem_cons.mpr (Or.inr h))))
              (hnowait r)
      · intro t ht
        rcases List.mem_append.mp ht with h | h
        · exact h5 t (htasks ▸ List.mem_append.mpr (Or.inl h))
        · rcases List.mem_cons.mp h with h | h
          · subst h; exact ⟨by simp, fun r' => by simp⟩
          · exact h5 t
              (htasks ▸ List.mem_append.mpr (Or.inr (List.mem_cons.mpr (Or.inr h))))
  | dNew pre post htasks =>
      exact absurd rfl
        (h5 RTask.dStart (htasks ▸ List.mem_append.mpr (Or.inr (by simp)))).1
  | complete r v hrin =>
      have hmr : s.marker = some r := h1 r hrin
      have hsingle : s.inflight = [r] :=
        eq_singleton_of_all_eq hrin
          (fun a ha => by
            have h := h1 a ha
            rw [hmr] at h
            exact (Option.some.inj h).symm) h2
      refine ⟨?_, ?_, ?_, ?_, ?_⟩
      · intro r' hr'
        rw [hsingle] at hr'
        simp [List.erase_cons_head] at hr'
      · rw [hsingle]
        simp [List.erase_cons_head]
      · intro r' hr'
        rw [hmr] at hr'
        simp only [if_pos rfl] at hr'
        cases hr'
      · intro r' hr'
        rcases List.mem_map.mp hr' with ⟨t, ht, hres⟩
        obtain ⟨hti, hne⟩ := resolveTask_icWait r v r' t hres
        subst hti
        have h := h4 r' ht
        rw [hmr] at h
        exact absurd (Option.some.inj h).symm hne
      · intro t' ht'
        rcases List.mem_map.mp ht' with ⟨t, ht, hres⟩
        constructor
        · intro hd
          rw [hd] at hres
          exact (h5 t ht).1 ((resolveTask_dStart_iff r v t).mp hres)
        · intro r' hd
          rw [hd] at hres
          obtain ⟨r'', hr''⟩ := resolveTask_dWait r v r' t hres
          exact (h5 t ht).2 r'' hr''

/-- **C1 (amended)**: for refreshes triggered through the 401 interceptor
(`_refreshPromise` memoization), every reachable state of any number of
concurrent interceptor invocations has at most one refresh network call in
flight, and all awaiting invocations await the same outstanding call — so
they all receive its one result.  (The unamended claim extends this to
direct `refreshAccessToken`/`ensureAuthenticated` callers, which the code
does not de-duplicate; see the counterexample.) -/
theorem claim_C1_single_refresh_amended (n : Nat) (s : RState)
    (h : RReach (initInterceptors n) s) :
    s.inflight.length ≤ 1 ∧
      ∀ r r', RTask.icWait r ∈ s.tasks → RTask.icWait r' ∈ s.tasks → r = r' := by
  have hinv : RInv s := by
    induction h with
    | refl => exact rinv_init n
    | tail hreach hstep ih => exact rinv_step ih hstep
  obtain ⟨h1, h2, _, h4, _⟩ := hinv
  constructor
  · cases hin : s.inflight with
    | nil => simp
    | cons a l =>
        have := eq_singleton_of_all_eq (l := a :: l) (r := a) (by simp)
          (fun b hb => by
            have hbm := h1 b (hin ▸ hb)
            have ham := h1 a (hin ▸ by simp)
            rw [ham] at hbm
            exact (Option.some.injEq _ _ ▸ hbm).symm)
          (hin ▸ h2)
        simp [this]
  · intro r r' hr hr'
    have h := h4 r hr
    have h' := h4 r' hr'
    rw [h] at h'
    exact (Option.some.injEq _ _ ▸ h')

/-- Witness for C1 (amended): after the very first step of three
simultaneous interceptor invocations (one stores the promise and fires the
POST), exactly one call is in flight. -/
theorem claim_C1_single_refresh_amended_witness :
    RReach (initInterceptors 3)
        ⟨some 0, [0], [.icWait 0, .icStart, .icStart], 1⟩ ∧
      ([0] : List Nat).length ≤ 1 := by
  have hstep : RStep (initInterceptors 3)
      ⟨some 0, [0], [.icWait 0, .icStart, .icStart], 1⟩ := by
    have h := RStep.icNew (initInterceptors 3) [] [.icStart, .icStart] rfl rfl
    exact h
  have hr : RReach (initInterceptors 3)
      ⟨some 0, [0], [.icWait 0, .icStart, .icStart], 1⟩ :=
    .tail (.refl _) hstep
  exact ⟨hr, (claim_C1_single_refresh_amended 3 _ hr).1.trans_eq (by simp)⟩

/-- **C1 counterexample**: two concurrent *direct* callers of
`refreshAccessToken` (the path the claim explicitly includes) reach a state
with **two** refresh network calls in flight, because
`ITDClient.refreshAccessToken` calls `auth.refreshAccessToken` without
consulting `_refreshPromise`. -/
theorem claim_C1_single_refresh_counterexample :
    RReach initTwoDirect directTrace2 ∧ directTrace2.inflight.length = 2 := by
  refine ⟨?_, rfl⟩
  have h1 : RStep initTwoDirect directTrace1 :=
    RStep.dNew initTwoDirect [] [.dStart] rfl
  have h2 : RStep directTrace1 directTrace2 :=
    RStep.dNew directTrace1 [.dWait 0] [] rfl
  exact .tail (.tail (.refl _) h1) h2

/-! ## Splitting and joining: helper lemmas -/

/-- A split is never the empty list of segments. -/
theorem splitOnChar_ne_nil (sep : Char) (l : List Char) : splitOnChar sep l ≠ [] := by
  induction l with
  | nil => simp [splitOnChar]
  | cons c cs ih =>
      simp only [splitOnChar]
      split
      · simp
      · cases hr : splitOnChar sep cs with
        | nil => exact absurd hr ih
        | cons h t => simp

/-- Splitting a separator-free list yields that single segment. -/
theorem splitOnChar_eq_single {sep : Char} {l : List Char} (h : sep ∉ l) :
    splitOnChar sep l = [l] := by
  induction l with
  | nil => rfl
  | cons c cs ih =>
      have hc : ¬c = sep := fun hc => h (hc ▸ List.mem_cons_self c cs)
      have hcs : sep ∉ cs := fun hm => h (List.mem_cons_of_mem c hm)
      simp only [splitOnChar, if_neg hc, ih hcs]

/-- Equation: splitting at a leading separator. -/
theorem splitOnChar_cons_self (sep : Char) (cs : List Char) :
    splitOnChar sep (sep :: cs) = [] :: splitOnChar sep cs := by
  simp [splitOnChar]

/-- Equation: splitting at a leading non-separator. -/
theorem splitOnChar_cons_ne {sep c : Char} (cs : List Char) (hc : ¬c = sep)
    {hd : List Char} {t : List (List Char)} (hr : splitOnChar sep cs = hd :: t) :
    splitOnChar sep (c :: cs) = (c :: hd) :: t := by
  simp [splitOnChar, hc, hr]

/-- Splitting distributes over a separator occurrence. -/
theorem splitOnChar_append (sep : Char) (a b : List Char) :
    splitOnChar sep (a ++ sep :: b) = splitOnChar sep a ++ splitOnChar sep b := by
  induction a with
  | nil => simp [splitOnChar]
  | cons c a' ih =>
      by_cases hc : c = sep
      · subst hc
        rw [List.cons_append, splitOnChar_cons_self, ih, splitOnChar_cons_self,
          List.cons_append]
      · cases hr : splitOnChar sep a' with
        | nil => exact absurd hr (splitOnChar_ne_nil sep a')
        | cons h t =>
            have h1 : splitOnChar sep (a' ++ sep :: b)
                = h :: (t ++ splitOnChar sep b) := by
              rw [ih, hr]; rfl
            rw [List.cons_append, splitOnChar_cons_ne _ hc h1,
              splitOnChar_cons_ne _ hc hr]
            rfl

/-- Joining with the separator undoes the split. -/
theorem joinSep_splitOnChar (sep : Char) (l : List Char) :
    joinSep [sep] (splitOnChar sep l) = l := by
  induction l with
  | nil => rfl
  | cons c cs ih =>
      by_cases hc : c = sep
      · subst hc
        cases hr : splitOnChar c cs with
        | nil => exact absurd hr (splitOnChar_ne_nil c cs)
        | cons h t =>
            rw [hr] at ih
            simp only [splitOnChar, if_pos rfl, hr, joinSep, ih]
            cases t <;> simp_all [joinSep]
      · cases hr : splitOnChar sep cs with
        | nil => exact absurd hr (splitOnChar_ne_nil sep cs)
        | cons h t =>
            rw [hr] at ih
            simp only [splitOnChar, if_neg hc, hr]
            cases t with
            | nil => simpa [joinSep] using congrArg (c :: ·) ih
            | cons h' t' => simpa [joinSep] using congrArg (c :: ·) ih

/-- On segment lists whose segments are separator free, splitting undoes the
join. -/
theorem splitOnChar_joinSep {sep : Char} {ls : List (List Char)} (hne : ls ≠ [])
    (h : ∀ l ∈ ls, sep ∉ l) : splitOnChar sep (joinSep [sep] ls) = ls := by
  induction ls with
  | nil => exact absurd rfl hne
  | cons l ls' ih =>
      cases ls' with
      | nil => exact splitOnChar_eq_single (h l (by simp))
      | cons l₂ ls'' =>
          have : joinSep [sep] (l :: l₂ :: ls'') = l ++ sep :: joinSep [sep] (l₂ :: ls'') := by
            simp [joinSep]
          rw [this, splitOnChar_append, splitOnChar_eq_single (h l (by simp)),
            ih (by simp) (fun x hx => h x (List.mem_cons_of_mem l hx))]
          rfl

/-- The separator never occurs inside a segment of the split. -/
theorem not_mem_of_mem_splitOnChar {sep : Char} {l l' : List Char}
    (h : l' ∈ splitOnChar sep l) : sep ∉ l' := by
  induction l generalizing l' with
  | nil =>
      simp only [splitOnChar, List.mem_singleton] at h
      subst h; simp
  | cons c cs ih =>
      by_cases hc : c = sep
      · subst hc
        rw [splitOnChar_cons_self] at h
        rcases List.mem_cons.mp h with h | h
        · subst h; simp
        · exact ih h
      · cases hr : splitOnChar sep cs with
        | nil => exact absurd hr (splitOnChar_ne_nil sep cs)
        | cons hd t =>
            rw [splitOnChar_cons_ne _ hc hr] at h
            rcases List.mem_cons.mp h with h | h
            · subst h
              intro hm
              rcases List.mem_cons.mp hm with h | h
              · exact hc h.symm
              · exact ih (hr ▸ List.mem_cons_self hd t) h
            · exact ih (hr ▸ List.mem_cons_of_mem hd h)

/-- A member of a split segment is a member of the split list. -/
theorem mem_of_mem_splitOnChar {sep : Char} {l l' : List Char} {c : Char}
    (hl' : l' ∈ splitOnChar sep l) (hc : c ∈ l') : c ∈ l := by
  induction l generalizing l' with
  | nil =>
      simp only [splitOnChar, List.mem_singleton] at hl'
      subst hl'; cases hc
  | cons c₀ cs ih =>
      by_cases hc₀ : c₀ = sep
      · subst hc₀
        rw [splitOnChar_cons_self] at hl'
        rcases List.mem_cons.mp hl' with h | h
        · subst h; cases hc
        · exact List.mem_cons_of_mem _ (ih h hc)
      · cases hr : splitOnChar sep cs with
        | nil => exact absurd hr (splitOnChar_ne_nil sep cs)
        | cons hd t =>
            rw [splitOnChar_cons_ne _ hc₀ hr] at hl'
            rcases List.mem_cons.mp hl' with h | h
            · subst h
              rcases List.mem_cons.mp hc with h | h
              · exact h ▸ List.mem_cons_self c₀ cs
              · exact List.mem_cons_of_mem _
                  (ih (hr ▸ List.mem_cons_self hd t) h)
            · exact List.mem_cons_of_mem _
                (ih (hr ▸ List.mem_cons_of_mem hd h) hc)

/-! ## Locating the line-anchored match -/

/-- No character of the literal `ITD_ACCESS_TOKEN=` is a line terminator. -/
theorem tokenKey_no_term : ∀ c ∈ tokenKey, isLineTerm c = false := by decide

/-- No character of the literal `ITD_ACCESS_TOKEN=` is a dollar sign. -/
theorem tokenKey_no_dollar : ∀ c ∈ tokenKey, c ≠ '$' := by decide

/-- The literal `ITD_ACCESS_TOKEN=` is not a prefix of the empty line. -/
theorem tokenKey_isPrefixOf_nil : tokenKey.isPrefixOf [] = false := by decide

/-- The key never matches at a position holding a line terminator. -/
theorem isPrefixOf_term_head {c : Char} (r : List Char) (hc : isLineTerm c = true) :
    tokenKey.isPrefixOf (c :: r) = false := by
  by_contra h
  rw [Bool.not_eq_false, List.isPrefixOf_iff_prefix] at h
  obtain ⟨t, ht⟩ := h
  have hk : tokenKey = 'I' :: tokenKey.tail := by decide
  rw [hk] at ht
  have hhead : 'I' = c := by
    have := congrArg List.head? ht
    simpa using this
  rw [← hhead] at hc
  exact absurd hc (by decide)

/-- Whether the key matches a line followed by more text is decided inside
the line, because the key contains no line terminator. -/
theorem isPrefixOf_append_newline {key : List Char} (m r : List Char)
    (hkey : ∀ c ∈ key, isLineTerm c = false)
    (hm : ∀ c ∈ m, isLineTerm c = false) :
    key.isPrefixOf (m ++ '\n' :: r) = key.isPrefixOf m := by
  induction m generalizing key with
  | nil =>
      cases key with
      | nil => rfl
      | cons k key' =>
          have hk : isLineTerm k = false := hkey k (by simp)
          have hkn : (k == '\n') = false := by
            rw [beq_eq_false_iff_ne]
            intro h
            rw [h] at hk
            exact absurd hk (by decide)
          simp [List.isPrefixOf, hkn]
  | cons a m' ih =>
      cases key with
      | nil => rfl
      | cons k key' =>
          simp only [List.cons_append, List.isPrefixOf, List.append_eq]
          rw [@ih key'
            (fun c hc => hkey c (List.mem_cons_of_mem k hc))
            (fun c hc => hm c (List.mem_cons_of_mem a hc))]

/-- `takeWhile`/`dropWhile` on a block of satisfying characters followed by
a failing one. -/
theorem takeWhile_all_append {p : Char → Bool} {m : List Char} (x : Char)
    (r : List Char) (hm : ∀ c ∈ m, p c = true) (hx : p x = false) :
    (m ++ x :: r).takeWhile p = m ∧ (m ++ x :: r).dropWhile p = x :: r := by
  induction m with
  | nil => simp [List.takeWhile_cons, List.dropWhile_cons, hx]
  | cons a m' ih =>
      have ha : p a = true := hm a (by simp)
      have ih' := ih (fun c hc => hm c (by simp [hc]))
      simp [List.takeWhile_cons, List.dropWhile_cons, ha, ih'.1, ih'.2]

/-- `takeWhile`/`dropWhile` on a list of satisfying characters. -/
theorem takeWhile_all {p : Char → Bool} {m : List Char}
    (hm : ∀ c ∈ m, p c = true) :
    m.takeWhile p = m ∧ m.dropWhile p = [] := by
  induction m with
  | nil => simp
  | cons a m' ih =>
      have ha : p a = true := hm a (by simp)
      have ih' := ih (fun c hc => hm c (by simp [hc]))
      simp [List.takeWhile_cons, List.dropWhile_cons, ha, ih'.1, ih'.2]

/-- In terminator-free text with no match at its start, there is no match
at all. -/
theorem findTokenMatch_none : ∀ (l : List Char),
    (∀ c ∈ l, isLineTerm c = false) →
    ∀ b, (b = true → tokenKey.isPrefixOf l = false) →
    findTokenMatch b l = none := by
  intro l
  induction l with
  | nil => intro _ b _; rfl
  | cons c l' ih =>
      intro hl b hb
      have hcond : ¬(b = true ∧ tokenKey.isPrefixOf (c :: l') = true) := by
        rintro ⟨hb', hp⟩
        rw [hb hb'] at hp
        cases hp
      simp only [findTokenMatch]
      rw [if_neg hcond, hl c (by simp),
        ih (fun c' hc' => hl c' (by simp [hc'])) false (by simp)]
      rfl

/-- Scanning past one clean non-matching line: the match, if any, is found
after its newline, shifted accordingly. -/
theorem findTokenMatch_skip : ∀ (l : List Char) (rest : List Char),
    (∀ c ∈ l, isLineTerm c = false) →
    ∀ b, (b = true → tokenKey.isPrefixOf (l ++ '\n' :: rest) = false) →
    findTokenMatch b (l ++ '\n' :: rest)
      = (findTokenMatch true rest).map
          (fun p => (l ++ '\n' :: p.1, p.2.1, p.2.2)) := by
  intro l
  induction l with
  | nil =>
      intro rest _ b _
      simp only [List.nil_append]
      have hcond : ¬(b = true ∧ tokenKey.isPrefixOf ('\n' :: rest) = true) := by
        rintro ⟨_, hp⟩
        rw [isPrefixOf_term_head rest (by decide)] at hp
        cases hp
      simp only [findTokenMatch]
      rw [if_neg hcond]
      have hnl : isLineTerm '\n' = true := by decide
      rw [hnl]
  | cons a l' ih =>
      intro rest hl b hb
      have hcond : ¬(b = true ∧
          tokenKey.isPrefixOf (a :: (l' ++ '\n' :: rest)) = true) := by
        rintro ⟨hb', hp⟩
        have h := hb hb'
        rw [List.cons_append] at h
        rw [h] at hp
        cases hp
      simp only [List.cons_append, findTokenMatch, List.append_eq]
      rw [if_neg hcond, hl a (by simp),
        ih rest (fun c hc => hl c (by simp [hc])) false (by simp),
        Option.map_map]
      rfl

/-- A clean matching line at the very start, ending the text. -/
theorem findTokenMatch_hit_last {m : List Char}
    (hm : ∀ c ∈ m, isLineTerm c = false) (hp : tokenKey.isPrefixOf m = true) :
    findTokenMatch true m = some ([], m, []) := by
  cases m with
  | nil => rw [tokenKey_isPrefixOf_nil] at hp; cases hp
  | cons c m' =>
      have h := takeWhile_all (p := fun x => !isLineTerm x) (m := c :: m')
        (fun x hx => by simp [hm x hx])
      simp only [findTokenMatch]
      rw [if_pos (by exact ⟨by trivial, hp⟩), h.1, h.2]

/-- A clean matching line at the very start, followed by more text: the
match stops at the newline. -/
theorem findTokenMatch_hit_mid {m : List Char} (rest : List Char)
    (hm : ∀ c ∈ m, isLineTerm c = false) (hp : tokenKey.isPrefixOf m = true) :
    findTokenMatch true (m ++ '\n' :: rest) = some ([], m, '\n' :: rest) := by
  cases m with
  | nil => rw [tokenKey_isPrefixOf_nil] at hp; cases hp
  | cons c m' =>
      have hp' : tokenKey.isPrefixOf ((c :: m') ++ '\n' :: rest) = true := by
        rw [isPrefixOf_append_newline (c :: m') rest tokenKey_no_term hm]
        exact hp
      rw [List.cons_append] at hp'
      have h := takeWhile_all_append (p := fun x => !isLineTerm x) '\n' rest
        (m := c :: m') (fun x hx => by simp [hm x hx]) (by decide)
      rw [List.cons_append] at h
      simp only [List.cons_append, findTokenMatch, List.append_eq]
      rw [if_pos (by exact ⟨by trivial, hp'⟩), h.1, h.2]

/-- Equation for joining two or more segments. -/
theorem joinSep_cons₂ (sep : List Char) (x y : List Char)
    (t : List (List Char)) :
    joinSep sep (x :: y :: t) = x ++ sep ++ joinSep sep (y :: t) := rfl

/-- No line of the text matches: the regex test fails. -/
theorem findTokenMatch_joinSep_none : ∀ (ls : List (List Char)), ls ≠ [] →
    (∀ l ∈ ls, ∀ c ∈ l, isLineTerm c = false) →
    (∀ l ∈ ls, tokenKey.isPrefixOf l = false) →
    findTokenMatch true (joinSep ['\n'] ls) = none := by
  intro ls
  induction ls with
  | nil => intro h; exact absurd rfl h
  | cons l ls' ih =>
      intro _ hclean hnm
      cases ls' with
      | nil =>
          exact findTokenMatch_none l (hclean l (by simp)) true
            (fun _ => hnm l (by simp))
      | cons l₂ ls'' =>
          rw [joinSep_cons₂]
          have heq : l ++ ['\n'] ++ joinSep ['\n'] (l₂ :: ls'')
              = l ++ '\n' :: joinSep ['\n'] (l₂ :: ls'') := by simp
          rw [heq]
          rw [findTokenMatch_skip l _ (hclean l (by simp)) true ?hpre]
          · rw [ih (by simp)
              (fun x hx => hclean x (List.mem_cons_of_mem l hx))
              (fun x hx => hnm x (List.mem_cons_of_mem l hx))]
            rfl
          case hpre =>
            intro _
            rw [isPrefixOf_append_newline l _ tokenKey_no_term (hclean l (by simp))]
            exact hnm l (by simp)

/-- The first matching line determines the match: text before it, the line
itself, and the remaining text after it. -/
theorem findTokenMatch_joinSep_hit : ∀ (pre : List (List Char))
    (m : List Char) (post : List (List Char)),
    (∀ l ∈ pre ++ m :: post, ∀ c ∈ l, isLineTerm c = false) →
    (∀ l ∈ pre, tokenKey.isPrefixOf l = false) →
    tokenKey.isPrefixOf m = true →
    findTokenMatch true (joinSep ['\n'] (pre ++ m :: post))
      = some (joinSepNl pre, m,
          if post.isEmpty then [] else '\n' :: joinSep ['\n'] post) := by
  intro pre
  induction pre with
  | nil =>
      intro m post hclean _ hm
      cases post with
      | nil =>
          simpa [joinSepNl] using
            findTokenMatch_hit_last (hclean m (by simp)) hm
      | cons p post' =>
          rw [List.nil_append, joinSep_cons₂]
          have heq : m ++ ['\n'] ++ joinSep ['\n'] (p :: post')
              = m ++ '\n' :: joinSep ['\n'] (p :: post') := by simp
          rw [heq, findTokenMatch_hit_mid _ (hclean m (by simp)) hm]
          simp [joinSepNl]
  | cons l pre' ih =>
      intro m post hclean hnm hm
      have hne : pre' ++ m :: post ≠ [] := by
        cases pre' <;> simp
      rw [List.cons_append]
      cases hj : pre' ++ m :: post with
      | nil => exact absurd hj hne
      | cons j js =>
          rw [joinSep_cons₂]
          have heq : l ++ ['\n'] ++ joinSep ['\n'] (j :: js)
              = l ++ '\n' :: joinSep ['\n'] (j :: js) := by simp
          rw [heq]
          rw [findTokenMatch_skip l _ (hclean l (by simp)) true ?hpre2]
          · rw [← hj,
              ih m post
                (fun x hx => hclean x (List.mem_cons_of_mem l hx))
                (fun x hx => hnm x (List.mem_cons_of_mem l hx)) hm]
            simp [joinSepNl]
          case hpre2 =>
            intro _
            rw [isPrefixOf_append_newline l _ tokenKey_no_term (hclean l (by simp))]
            exact hnm l (by simp)

/-! ## The token-file update theorems -/

/-- A replacement string without dollars substitutes to itself. -/
theorem jsSubst_no_dollar : ∀ {repl : List Char}, (∀ c ∈ repl, c ≠ '$') →
    ∀ (matched before after : List Char),
    jsSubst matched before after repl = repl := by
  intro repl
  induction repl with
  | nil => intro _ _ _ _; rfl
  | cons c rest ih =>
      intro h matched before after
      have hc : ¬c = '$' := h c (by simp)
      rw [jsSubst.eq_def]
      simp only []
      rw [if_neg hc, ih (fun x hx => h x (List.mem_cons_of_mem c hx))]

/-- A list is a prefix of itself extended. -/
theorem isPrefixOf_append_self (l t : List Char) :
    l.isPrefixOf (l ++ t) = true := by
  rw [List.isPrefixOf_iff_prefix]
  exact ⟨t, rfl⟩

/-- Splits a list at its first element satisfying `p`. -/
theorem exists_first_split {α : Type} (p : α → Bool) :
    ∀ {ls : List α} {x : α}, x ∈ ls → p x = true →
    ∃ pre y post, ls = pre ++ y :: post ∧ (∀ z ∈ pre, p z = false) ∧
      p y = true := by
  intro ls
  induction ls with
  | nil => intro x hx; cases hx
  | cons a t ih =>
      intro x hx hpx
      by_cases hpa : p a = true
      · exact ⟨[], a, t, rfl, by simp, hpa⟩
      · have hxt : x ∈ t := by
          rcases List.mem_cons.mp hx with h | h
          · subst h; exact absurd hpx hpa
          · exact h
        obtain ⟨pre, y, post, heq, hpre, hy⟩ := ih hxt hpx
        exact ⟨a :: pre, y, post, by rw [heq]; rfl,
          fun z hz => by
            rcases List.mem_cons.mp hz with h | h
            · subst h; exact Bool.eq_false_iff.mpr hpa
            · exact hpre z h, hy⟩

/-- The spec-side replacement agrees with splicing at the first match. -/
theorem replaceFirstLineSpec_eq (newLine : List Char) :
    ∀ (pre : List (List Char)) (m : List Char) (post : List (List Char)),
    (∀ l ∈ pre, tokenKey.isPrefixOf l = false) →
    tokenKey.isPrefixOf m = true →
    replaceFirstLineSpec newLine (pre ++ m :: post) = pre ++ newLine :: post := by
  intro pre
  induction pre with
  | nil =>
      intro m post _ hm
      simp [replaceFirstLineSpec, hm]
  | cons l pre' ih =>
      intro m post hpre hm
      have hl : tokenKey.isPrefixOf l = false := hpre l (by simp)
      rw [List.cons_append, replaceFirstLineSpec.eq_def]
      simp only []
      rw [if_neg (by simp [hl]),
        ih m post (fun x hx => hpre x (List.mem_cons_of_mem l hx)) hm]
      rfl

/-- Splitting text that starts with newline-terminated clean lines. -/
theorem splitOnChar_joinSepNl : ∀ (pre : List (List Char)) (z : List Char),
    (∀ l ∈ pre, ('\n' : Char) ∉ l) →
    splitOnChar '\n' (joinSepNl pre ++ z) = pre ++ splitOnChar '\n' z := by
  intro pre
  induction pre with
  | nil => intro z _; rfl
  | cons l pre' ih =>
      intro z h
      have heq : joinSepNl (l :: pre') ++ z = l ++ '\n' :: (joinSepNl pre' ++ z) := by
        simp [joinSepNl]
      rw [heq, splitOnChar_append, splitOnChar_eq_single (h l (by simp)),
        ih z (fun x hx => h x (List.mem_cons_of_mem l hx))]
      rfl

/-- **C5 (amended)**: for file contents whose line terminators are `\n`
and token values containing no line terminator and no `$`,
`saveAccessToken`'s content rewrite behaves as claimed: when an
`ITD_ACCESS_TOKEN=` line exists, the first such line is replaced in place
(all other lines unchanged) and the number of `ITD_ACCESS_TOKEN=` lines is
unchanged — no duplicate appears; when none exists, the content is extended
by exactly `"\nITD_ACCESS_TOKEN=<token>\n"`, appending exactly one matching
line.  (For token values containing a newline or a JavaScript replacement
pattern such as `$&`, the claim fails; see the counterexample.) -/
theorem claim_C5_save_token_amended (content token : List Char)
    (hc : ∀ c ∈ content, isLineTerm c = true → c = '\n')
    (ht : ∀ c ∈ token, isLineTerm c = false ∧ c ≠ '$') :
    ((∃ l ∈ splitOnChar '\n' content, tokenKey.isPrefixOf l = true) →
        splitOnChar '\n' (saveTokenContent content token)
          = replaceFirstLineSpec (tokenKey ++ token) (splitOnChar '\n' content) ∧
        (splitOnChar '\n' (saveTokenContent content token)).countP
            (fun l => tokenKey.isPrefixOf l)
          = (splitOnChar '\n' content).countP (fun l => tokenKey.isPrefixOf l)) ∧
    ((∀ l ∈ splitOnChar '\n' content, tokenKey.isPrefixOf l = false) →
        saveTokenContent content token
          = content ++ '\n' :: (tokenKey ++ token) ++ ['\n'] ∧
        splitOnChar '\n' (saveTokenContent content token)
          = splitOnChar '\n' content ++ [tokenKey ++ token, []] ∧
        (splitOnChar '\n' (saveTokenContent content token)).countP
            (fun l => tokenKey.isPrefixOf l) = 1) := by
  have hclean : ∀ l ∈ splitOnChar '\n' content, ∀ c ∈ l, isLineTerm c = false := by
    intro l hl c hcl
    by_cases hterm : isLineTerm c = true
    · exact absurd ((hc c (mem_of_mem_splitOnChar hl hcl)) hterm ▸ hcl)
        (not_mem_of_mem_splitOnChar hl)
    · exact Bool.eq_false_iff.mpr hterm
  have hX : ∀ c ∈ tokenKey ++ token, isLineTerm c = false := by
    intro c hcX
    rcases List.mem_append.mp hcX with h | h
    · exact tokenKey_no_term c h
    · exact (ht c h).1
  have hXnl : ('\n' : Char) ∉ tokenKey ++ token := by
    intro hmem
    have := hX '\n' hmem
    exact absurd this (by decide)
  have hcontent : joinSep ['\n'] (splitOnChar '\n' content) = content :=
    joinSep_splitOnChar '\n' content
  constructor
  · rintro ⟨l₀, hl₀, hp₀⟩
    obtain ⟨pre, m, post, hsplit, hpre, hm⟩ :=
      exists_first_split (fun l => tokenKey.isPrefixOf l) hl₀ hp₀
    have hfind : findTokenMatch true content
        = some (joinSepNl pre, m,
            if post.isEmpty then [] else '\n' :: joinSep ['\n'] post) := by
      rw [← hcontent, hsplit]
      exact findTokenMatch_joinSep_hit pre m post (hsplit ▸ hclean) hpre hm
    have hsave : saveTokenContent content token
        = joinSepNl pre ++ (tokenKey ++ token) ++
            (if post.isEmpty then [] else '\n' :: joinSep ['\n'] post) := by
      unfold saveTokenContent
      rw [hfind]
      simp only []
      rw [jsSubst_no_dollar (fun c hc' => by
        rcases List.mem_append.mp hc' with h | h
        · exact tokenKey_no_dollar c h
        · exact (ht c h).2)]
    have hprenl : ∀ l ∈ pre, ('\n' : Char) ∉ l := by
      intro l hl hmem
      have := hclean l (hsplit ▸ List.mem_append.mpr (Or.inl hl)) '\n' hmem
      exact absurd this (by decide)
    have hlines : splitOnChar '\n' (saveTokenContent content token)
        = pre ++ (tokenKey ++ token) :: post := by
      rw [hsave, List.append_assoc, splitOnChar_joinSepNl pre _ hprenl]
      congr 1
      cases post with
      | nil =>
          rw [show (if ([] : List (List Char)).isEmpty then ([] : List Char)
              else '\n' :: joinSep ['\n'] []) = [] from rfl, List.append_nil]
          exact splitOnChar_eq_single hXnl
      | cons p post' =>
          have hpostclean : ∀ l ∈ p :: post', ('\n' : Char) ∉ l := by
            intro l hl hmem
            have := hclean l
              (hsplit ▸ List.mem_append.mpr (Or.inr (List.mem_cons_of_mem m hl)))
              '\n' hmem
            exact absurd this (by decide)
          rw [show (if (p :: post').isEmpty then ([] : List Char)
              else '\n' :: joinSep ['\n'] (p :: post'))
              = '\n' :: joinSep ['\n'] (p :: post') from rfl]
          rw [splitOnChar_append, splitOnChar_eq_single hXnl,
            splitOnChar_joinSep (by simp) hpostclean]
          rfl
    constructor
    · rw [hlines, hsplit,
        replaceFirstLineSpec_eq (tokenKey ++ token) pre m post hpre hm]
    · rw [hlines, hsplit]
      simp only [List.countP_append, List.countP_cons]
      rw [isPrefixOf_append_self tokenKey token, hm]
  · intro hnm
    have hfind : findTokenMatch true content = none := by
      rw [← hcontent]
      exact findTokenMatch_joinSep_none (splitOnChar '\n' content)
        (splitOnChar_ne_nil '\n' content) hclean hnm
    have hsave : saveTokenContent content token
        = content ++ '\n' :: (tokenKey ++ token) ++ ['\n'] := by
      unfold saveTokenContent
      rw [hfind]
    have hlines : splitOnChar '\n' (saveTokenContent content token)
        = splitOnChar '\n' content ++ [tokenKey ++ token, []] := by
      rw [hsave]
      have heq : content ++ '\n' :: (tokenKey ++ token) ++ ['\n']
          = content ++ '\n' :: ((tokenKey ++ token) ++ '\n' :: []) := by
        simp
      rw [heq, splitOnChar_append, splitOnChar_append,
        splitOnChar_eq_single hXnl]
      rfl
    refine ⟨hsave, hlines, ?_⟩
    rw [hlines]
    simp only [List.countP_append]
    have h0 : (splitOnChar '\n' content).countP (fun l => tokenKey.isPrefixOf l)
        = 0 := by
      rw [List.countP_eq_zero]
      intro l hl
      simp [hnm l hl]
    rw [h0]
    have h1 : ([tokenKey ++ token, []] : List (List Char)).countP
        (fun l => tokenKey.isPrefixOf l) = 1 := by
      simp only [List.countP_cons, List.countP_nil]
      rw [isPrefixOf_append_self tokenKey token, tokenKey_isPrefixOf_nil]
      rfl
    rw [h1]

/-- Witness for C5 (amended): replacing `ITD_ACCESS_TOKEN=old` by
`new123` in a three-line file rewrites exactly that line. -/
theorem claim_C5_save_token_amended_witness :
    splitOnChar '\n'
        (saveTokenContent "A=1\nITD_ACCESS_TOKEN=old\nB=2".toList "new123".toList)
      = ["A=1".toList, "ITD_ACCESS_TOKEN=new123".toList, "B=2".toList] := by
  have h := (claim_C5_save_token_amended "A=1\nITD_ACCESS_TOKEN=old\nB=2".toList
    "new123".toList (by decide) (by decide)).1 (by decide)
  rw [h.1]
  decide

/-- **C5 counterexample**: the claim quantifies over every token value, but
for the token value `"x\nITD_ACCESS_TOKEN=y"` (a token containing a
newline), saving into a file with no `ITD_ACCESS_TOKEN=` line appends
**two** `ITD_ACCESS_TOKEN=` lines, not exactly one. -/
theorem claim_C5_save_token_counterexample :
    (∀ l ∈ splitOnChar '\n' "A=1".toList, tokenKey.isPrefixOf l = false) ∧
    (splitOnChar '\n' (saveTokenContent "A=1".toList
        ("x\nITD_ACCESS_TOKEN=y".toList))).countP
        (fun l => tokenKey.isPrefixOf l) = 2 := by decide

/-! ## The cookie header round trip -/

/-- `dropWhile` does nothing when no character satisfies the predicate. -/
theorem dropWhile_all_false {p : Char → Bool} {s : List Char}
    (h : ∀ c ∈ s, p c = false) : s.dropWhile p = s := by
  cases s with
  | nil => rfl
  | cons a t => rw [List.dropWhile_cons, if_neg (by simp [h a (by simp)])]

/-- Trimming whitespace-free text does nothing. -/
theorem jsTrim_id {s : List Char} (h : ∀ c ∈ s, isJsWs c = false) :
    jsTrim s = s := by
  unfold jsTrim
  rw [dropWhile_all_false h,
    dropWhile_all_false (fun c hc => h c (List.mem_reverse.mp hc)),
    List.reverse_reverse]

/-- Trimming eats a leading space. -/
theorem jsTrim_cons_space (s : List Char) : jsTrim (' ' :: s) = jsTrim s := by
  unfold jsTrim
  rw [List.dropWhile_cons, if_pos (by decide)]

/-- Parsing one persisted `key=value` pair recovers the cookie. -/
theorem parseCookiePart_pair {c : Cookie} (hc : cleanCookie c) :
    parseCookiePart (c.key ++ '=' :: c.value) = some (c.key, c.value) := by
  obtain ⟨hkey, hkclean, _⟩ := hc
  have hknil : c.key ≠ [] := fun h => hkey (by simp [h])
  have hsplit : splitOnChar '=' (c.key ++ '=' :: c.value)
      = c.key :: splitOnChar '=' c.value := by
    rw [splitOnChar_append,
      splitOnChar_eq_single (fun hm => absurd rfl (hkclean '=' hm).2.1)]
    rfl
  have hpart : (c.key ++ '=' :: c.value).isEmpty = false := by
    cases hk : c.key with
    | nil => exact absurd hk hknil
    | cons a tl => simp [hk]
  unfold parseCookiePart
  rw [if_neg (by simp [hpart]), hsplit]
  simp only []
  rw [if_pos ⟨hkey, fun h => splitOnChar_ne_nil '=' c.value (by simpa using h)⟩,
    joinSep_splitOnChar]

/-- Splitting the persisted header on `;` and trimming recovers the
`key=value` parts in order. -/
theorem map_jsTrim_split_join : ∀ (cs : List Cookie), cs ≠ [] →
    (∀ c ∈ cs, cleanCookie c) →
    (splitOnChar ';' (joinCookieHeader cs)).map jsTrim
      = cs.map (fun c => c.key ++ '=' :: c.value) := by
  intro cs
  induction cs with
  | nil => intro h; exact absurd rfl h
  | cons c cs' ih =>
      intro _ hclean
      obtain ⟨hkey, hkclean, hvclean⟩ := hclean c (by simp)
      have hnosemi : (';' : Char) ∉ c.key ++ '=' :: c.value := by
        intro hm
        rcases List.mem_append.mp hm with h | h
        · exact absurd rfl (hkclean ';' h).1
        · rcases List.mem_cons.mp h with h | h
          · exact absurd h (by decide)
          · exact absurd rfl (hvclean ';' h).1
      have hnows : ∀ x ∈ c.key ++ '=' :: c.value, isJsWs x = false := by
        intro x hm
        rcases List.mem_append.mp hm with h | h
        · exact (hkclean x h).2.2
        · rcases List.mem_cons.mp h with h | h
          · subst h; decide
          · exact (hvclean x h).2
      cases cs' with
      | nil =>
          rw [show joinCookieHeader [c] = c.key ++ '=' :: c.value from rfl,
            splitOnChar_eq_single hnosemi]
          simp only [List.map_cons, List.map_nil]
          rw [jsTrim_id hnows]
      | cons c₂ cs'' =>
          have hjoin : joinCookieHeader (c :: c₂ :: cs'')
              = (c.key ++ '=' :: c.value) ++
                  ';' :: ' ' :: joinCookieHeader (c₂ :: cs'') := by
            simp only [joinCookieHeader, List.map_cons, joinSep_cons₂]
            simp
          rw [hjoin, splitOnChar_append, splitOnChar_eq_single hnosemi]
          cases hsp : splitOnChar ';' (joinCookieHeader (c₂ :: cs'')) with
          | nil => exact absurd hsp (splitOnChar_ne_nil _ _)
          | cons hd tl =>
              rw [splitOnChar_cons_ne _ (by decide) hsp]
              simp only [List.singleton_append, List.map_cons]
              rw [jsTrim_id hnows, jsTrim_cons_space]
              have ihr := ih (by simp)
                (fun x hx => hclean x (List.mem_cons_of_mem c hx))
              rw [hsp] at ihr
              simp only [List.map_cons] at ihr
              rw [ihr]

/-- Persisted-header round trip: the parse of `_loadCookiesFromFile`
recovers exactly the cookies `saveCookieHeader` was given, in order. -/
theorem parseCookieHeader_joinCookieHeader {cs : List Cookie} (hne : cs ≠ [])
    (hclean : ∀ c ∈ cs, cleanCookie c) :
    parseCookieHeader (joinCookieHeader cs)
      = cs.map (fun c => (c.key, c.value)) := by
  unfold parseCookieHeader
  rw [map_jsTrim_split_join cs hne hclean]
  clear hne
  induction cs with
  | nil => rfl
  | cons c cs' ih =>
      simp only [List.map_cons]
      rw [List.filterMap_cons]
      rw [parseCookiePart_pair (hclean c (by simp))]
      rw [ih (fun x hx => hclean x (List.mem_cons_of_mem c hx))]

/-- **C6**: after a successful refresh whose response carries `set-cookie`
headers, the jar holds the upserted cookies, the important filter keeps
exactly the allow-listed cookies (`refresh_token`, `__ddg*` prefixes,
`is_auth`) — cookies outside the allow-list are never written — and the
persisted header is their `; `-join, which parses back (for clean cookie
strings) to exactly those cookies. -/
theorem claim_C6_cookie_filter (st : ClientState) (cs : List Cookie)
    (t : List Char) (cookies : List Cookie)
    (hjar : st.jar = .ok cs) (hcred : st.hasRefreshToken = true)
    (ht : ¬t.isEmpty) :
    ((refreshAccessToken st (.responds 200 (some t) (some cookies))).state.jar
        = .ok (cookies.foldl jarSet cs)) ∧
    (∀ c, c ∈ (cookies.foldl jarSet cs).filter importantCookie ↔
        (c ∈ cookies.foldl jarSet cs ∧ importantCookie c = true)) ∧
    (((cookies.foldl jarSet cs).filter importantCookie).isEmpty = false →
        (refreshAccessToken st
            (.responds 200 (some t) (some cookies))).state.cookieFile
          = some (joinCookieHeader
              ((cookies.foldl jarSet cs).filter importantCookie))) ∧
    ((cookies.foldl jarSet cs).filter importantCookie ≠ [] →
      (∀ c ∈ (cookies.foldl jarSet cs).filter importantCookie, cleanCookie c) →
        parseCookieHeader (joinCookieHeader
            ((cookies.foldl jarSet cs).filter importantCookie))
          = ((cookies.foldl jarSet cs).filter importantCookie).map
              (fun c => (c.key, c.value))) := by
  refine ⟨?_, ?_, ?_, ?_⟩
  · simp only [refreshAccessToken, hcred, if_true]
    simp only [ht, not_false_iff, and_true, if_pos rfl]
    simp [applyCookieUpdates, hjar]
    split <;> rfl
  · intro c
    exact List.mem_filter
  · intro himp
    simp only [refreshAccessToken, hcred, if_true]
    simp only [ht, not_false_iff, and_true, if_pos rfl]
    simp [applyCookieUpdates, hjar, himp]
  · intro hne hcl
    exact parseCookieHeader_joinCookieHeader hne hcl

/-- Witness for C6 — the spec's P6 instance: a jar ending with five cookies
of which exactly two are allow-listed persists exactly
`refresh_token=new; __ddgid=9`, and that header parses back to those two
cookies. -/
theorem claim_C6_cookie_filter_witness :
    (refreshAccessToken
        ⟨none, false, none,
          .ok [⟨"sid".toList, "1".toList⟩,
               ⟨"refresh_token".toList, "old".toList⟩,
               ⟨"theme".toList, "2".toList⟩], none, none, none⟩
        (.responds 200 (some "tok".toList)
          (some [⟨"refresh_token".toList, "new".toList⟩,
                 ⟨"foo".toList, "3".toList⟩,
                 ⟨"__ddgid".toList, "9".toList⟩]))).state.cookieFile
      = some "refresh_token=new; __ddgid=9".toList ∧
    parseCookieHeader "refresh_token=new; __ddgid=9".toList
      = [("refresh_token".toList, "new".toList),
         ("__ddgid".toList, "9".toList)] := by
  have h := claim_C6_cookie_filter
    ⟨none, false, none,
      .ok [⟨"sid".toList, "1".toList⟩,
           ⟨"refresh_token".toList, "old".toList⟩,
           ⟨"theme".toList, "2".toList⟩], none, none, none⟩
    [⟨"sid".toList, "1".toList⟩, ⟨"refresh_token".toList, "old".toList⟩,
     ⟨"theme".toList, "2".toList⟩]
    "tok".toList
    [⟨"refresh_token".toList, "new".toList⟩, ⟨"foo".toList, "3".toList⟩,
     ⟨"__ddgid".toList, "9".toList⟩]
    rfl (by decide) (by decide)
  constructor
  · rw [h.2.2.1 (by decide)]
    decide
  · have h4 := h.2.2.2 (by decide) (by decide)
    rw [show joinCookieHeader
        (([⟨"refresh_token".toList, "new".toList⟩, ⟨"foo".toList, "3".toList⟩,
           ⟨"__ddgid".toList, "9".toList⟩].foldl jarSet
          [⟨"sid".toList, "1".toList⟩, ⟨"refresh_token".toList, "old".toList⟩,
           ⟨"theme".toList, "2".toList⟩]).filter importantCookie)
        = "refresh_token=new; __ddgid=9".toList from by decide] at h4
    rw [h4]
    decide

end ITD
